import Mathlib

/-!
Verification of the kirikei BI-service pipeline (scrape.py, search.py,
recall_services.py, details_services.py).

Each Python function relevant to the verified properties is embedded as a
Lean definition operating on explicit data.  External effects are made
explicit: HTTP page fetches become function arguments, the JSON cache files
become an `Option (List _)` value threaded through the provider, and the
recursive cache-miss fallback is given a fuel parameter so that termination
is a provable statement rather than an assumption.  Python strings are
modelled as lists of characters, and the opaque numeric scores as rationals
(the pipeline never computes with a score, it only stores and compares
records containing them).
-/

namespace Kirikei

/-- Python `str.strip()`: drop whitespace from both ends of a string. -/
def pyStrip (s : List Char) : List Char :=
  ((s.dropWhile Char.isWhitespace).reverse.dropWhile Char.isWhitespace).reverse

/-- The inline name-cleaning step of `scrape.get_bi_service_list`
(`service_name.split('（')[0].strip()` guarded by `if '（' in service_name`):
if the name contains a full-width open bracket, keep only the part before the
first one and strip surrounding whitespace; otherwise the name is returned
unchanged. -/
def stripParen (s : List Char) : List Char :=
  if '（' ∈ s then pyStrip (s.takeWhile (fun c => decide (c ≠ '（'))) else s

/-- The transformation exactly as the spec sentence states it, for every
input: drop everything from the first full-width bracket onward, then trim
whitespace (even when no bracket is present). -/
def stripParenSpec (s : List Char) : List Char :=
  pyStrip (s.takeWhile (fun c => decide (c ≠ '（')))

/-- Extraction of one product card: the raw anchor text of the card, or the
exception raised while extracting it (`p.find('a', text=True).string`). -/
abbrev CardRes := Except Unit (List Char)

/-- Processing the product cards of one page, in order: each successfully
extracted raw name is cleaned and accumulated; a card-level exception stops
the page and raises the abort flag (second component). -/
def processCards : List CardRes → List (List Char) × Bool
  | [] => ([], false)
  | Except.error _ :: _ => ([], true)
  | Except.ok raw :: rest =>
    let r := processCards rest
    (stripParen raw :: r.1, r.2)

/-- The pagination loop of `get_bi_service_list` (forced branch).  `page i`
models the whole per-page try block: either the fetch/parse fails
(`Except.error`) or it yields the card extractions of page `i`.  A page-level
error returns the accumulated list at once; a card-level error keeps the names
extracted from that page before the failing card and then stops. -/
def scrapePages (page : Nat → Except Unit (List CardRes)) :
    List Nat → List (List Char)
  | [] => []
  | i :: rest =>
    match page i with
    | Except.error _ => []
    | Except.ok cards =>
      let r := processCards cards
      if r.2 then r.1 else r.1 ++ scrapePages page rest

/-- What the failure-policy claim literally describes: only the names of the
pages fully processed before the first error are returned. -/
def namesBeforeErrorPage (page : Nat → Except Unit (List CardRes)) :
    List Nat → List (List Char)
  | [] => []
  | i :: rest =>
    match page i with
    | Except.error _ => []
    | Except.ok cards =>
      let r := processCards cards
      if r.2 then [] else r.1 ++ namesBeforeErrorPage page rest

/-- A concrete page behaviour: page 1 yields one good card ("A") followed by
a card whose extraction raises; every other page fetch succeeds with no
cards. -/
def pgOneBadCard : Nat → Except Unit (List CardRes) :=
  fun i => if i = 1 then Except.ok [Except.ok ['A'], Except.error ()]
           else Except.ok []

/-- `scrape.get_bi_service_list` with the cache file made explicit.  The
result is `none` when the fuel bound on the recursion depth is exhausted,
otherwise the returned list, the cache content afterwards, and the number of
live scrape passes performed.  The forced branch scrapes pages 1..14
(`range(1, 15)`) and persists the list; the non-forced branch loads the cache
and falls back to the forced branch when the cache file is absent. -/
def get_bi_service_list (page : Nat → Except Unit (List CardRes)) :
    Nat → Bool → Option (List (List Char)) →
    Option (List (List Char) × Option (List (List Char)) × Nat)
  | 0, _, _ => none
  | _ + 1, true, _ =>
    let res := scrapePages page (List.range' 1 14)
    some (res, some res, 1)
  | fuel + 1, false, cache =>
    match cache with
    | some l => some (l, some l, 0)
    | none => get_bi_service_list page fuel true none

/-- The `Service` model of recall_services.py: a service name together with
the boolean "know" flag. -/
structure Service where
  service_name : List Char
  know : Bool
deriving DecidableEq

/-- One raw record of the JSON-decoded LLM response before post-filtering:
the name may be empty and the boolean may be null. -/
structure RawService where
  service_name : List Char
  know : Option Bool
deriving DecidableEq

/-- The pure post-filtering part of `get_services_from_gemini`: keep a raw
record only when its name is truthy (non-empty) and its boolean is not null
(`if item['service_name'] and item['know'] is not None`). -/
def get_services_from_gemini (response : List RawService) : List Service :=
  response.filterMap fun item =>
    match item.know with
    | none => none
    | some b => if item.service_name = [] then none else some ⟨item.service_name, b⟩

/-- One Google custom-search result item (the fields the pipeline reads). -/
structure SearchItem where
  title : List Char
  snippet : List Char
deriving DecidableEq

/-- Python `str.lower()`. -/
def lowerStr (s : List Char) : List Char := s.map Char.toLower

/-- Auxiliary for the substring test: does `hay` start with `needle`? -/
def startsWith : List Char → List Char → Bool
  | [], _ => true
  | _ :: _, [] => false
  | a :: as, b :: bs => decide (a = b) && startsWith as bs

/-- Python's `needle in hay` on strings: contiguous substring containment. -/
def containsSub (n : List Char) : List Char → Bool
  | [] => startsWith n []
  | c :: t => startsWith n (c :: t) || containsSub n t

/-- `recall_services.check_services_in_search`: one record per input name,
known when the lowercased name occurs in the lowercased title or snippet of
some search result. -/
def check_services_in_search (services_list : List (List Char))
    (search_results : List SearchItem) : List Service :=
  services_list.map fun service =>
    ⟨service, search_results.any fun r =>
      containsSub (lowerStr service) (lowerStr r.title) ||
      containsSub (lowerStr service) (lowerStr r.snippet)⟩

/-- The set comprehension of recall_services.py `__main__`:
`set(s['service_name'] for s in records if s['know'])`. -/
def knownSet (records : List Service) : Finset (List Char) :=
  ((records.filter fun s => s.know).map Service.service_name).toFinset

/-- The `venn_labels` computation of recall_services.py `__main__`: the
cardinalities of recall-only, search-only, and both. -/
def venn_labels (set_gemini set_search : Finset (List Char)) : Nat × Nat × Nat :=
  ((set_gemini \ set_search).card, (set_search \ set_gemini).card,
    (set_gemini ∩ set_search).card)

/-- Outcome of one chunk request of `search.get_google_search_results`:
a normal response with its items, a response without an `items` field, or a
raised request/decoding exception. -/
inductive PageRes where
  | ok (items : List SearchItem)
  | noItems
  | err

/-- The chunk loop of `get_google_search_results` (forced branch): chunks are
requested at the given start offsets; an error or a missing `items` field
stops the loop, and the loop also stops as soon as the accumulated results
reach the requested count. -/
def searchGo (fetch : Nat → PageRes) (target : Nat) :
    List Nat → List SearchItem → List SearchItem
  | [], acc => acc
  | i :: rest, acc =>
    match fetch (i + 1) with
    | PageRes.err => acc
    | PageRes.noItems => acc
    | PageRes.ok items =>
      let acc2 := acc ++ items
      if target ≤ acc2.length then acc2 else searchGo fetch target rest acc2

/-- The chunk start offsets `range(0, n, 10)` for `1 ≤ n`. -/
def chunkIndices (n : Nat) : List Nat := (List.range ((n + 9) / 10)).map (· * 10)

/-- `search.get_google_search_results` with the cache file made explicit.
`num_results` keeps its Python integer type.  The result is `none` when the
fuel bound on the recursion depth is exhausted, otherwise the returned list,
the cache content afterwards, and the numbers of live fetch passes, cache
loads and cache writes performed.  The guard on `num_results` precedes any
cache or network access; the forced branch runs the chunk loop, persists the
full accumulation and returns it truncated to `num_results`; the non-forced
branch loads the cache (truncating likewise) and falls back to the forced
branch when the cache file is absent. -/
def get_google_search_results (fetch : Nat → PageRes) (num_results : Int) :
    Nat → Bool → Option (List SearchItem) →
    Option (List SearchItem × Option (List SearchItem) × Nat × Nat × Nat)
  | 0, _, _ => none
  | fuel + 1, forced, cache =>
    if 1 ≤ num_results ∧ num_results ≤ 100 then
      if forced then
        let res := searchGo fetch num_results.toNat (chunkIndices num_results.toNat) []
        some (res.take num_results.toNat, some res, 1, 0, 1)
      else
        match cache with
        | some l => some (l.take num_results.toNat, some l, 0, 1, 0)
        | none => get_google_search_results fetch num_results fuel true none
    else some ([], cache, 0, 0, 0)

/-- The score records of details_services.py (score modelled as a rational;
the pipeline performs no arithmetic on scores). -/
structure ServiceScore where
  service_name : List Char
  score : ℚ
deriving DecidableEq

/-- The zero-fill loop at the end of details_services.py `__main__`: for each
scraped service name not already present among the scored records, append a
record with score 0.0.  The membership test is evaluated against the current,
already-extended list, exactly as the Python loop mutates `services_scores`
while iterating over `service_list`. -/
def fill_scores (service_list : List (List Char))
    (services_scores : List ServiceScore) : List ServiceScore :=
  service_list.foldl
    (fun acc service =>
      if service ∈ acc.map ServiceScore.service_name then acc
      else acc ++ [⟨service, 0⟩])
    services_scores

/-- The names the zero-fill loop appends, given the names already seen:
each name not yet seen is kept once and added to the seen set. -/
def missingNames : List (List Char) → List (List Char) → List (List Char)
  | [], _ => []
  | n :: ns, seen =>
    if n ∈ seen then missingNames ns seen else n :: missingNames ns (seen ++ [n])

/-! ## Helper lemmas -/

theorem pyStrip_subset {s : List Char} : ∀ x ∈ pyStrip s, x ∈ s := by
  intro x hx
  unfold pyStrip at hx
  rw [List.mem_reverse] at hx
  have h1 := (List.dropWhile_sublist Char.isWhitespace).subset hx
  rw [List.mem_reverse] at h1
  exact (List.dropWhile_sublist Char.isWhitespace).subset h1

theorem stripParen_idem (s : List Char) :
    stripParen (stripParen s) = stripParen s := by
  by_cases h : '（' ∈ s
  · have hno : '（' ∉ pyStrip (s.takeWhile (fun c => decide (c ≠ '（'))) := by
      intro hmem
      have h2 := List.mem_takeWhile_imp (pyStrip_subset _ hmem)
      simp at h2
    have e : stripParen s = pyStrip (s.takeWhile (fun c => decide (c ≠ '（'))) := by
      rw [stripParen, if_pos h]
    rw [e, stripParen, if_neg hno]
  · have e : stripParen s = s := by rw [stripParen, if_neg h]
    rw [e]
    exact e

theorem venn_card (A B : Finset (List Char)) :
    (A \ B).card + (B \ A).card + (A ∩ B).card = (A ∪ B).card := by
  have h1 := Finset.card_sdiff_add_card A B
  have h2 := Finset.card_inter_add_card_sdiff B A
  rw [Finset.inter_comm B A] at h2
  omega

theorem venn_disj (A B : Finset (List Char)) :
    Disjoint (A \ B) (B \ A) ∧ Disjoint (A \ B) (A ∩ B) ∧
      Disjoint (B \ A) (A ∩ B) := by
  refine ⟨?_, ?_, ?_⟩ <;> rw [Finset.disjoint_left] <;> intro x hx hx2 <;>
    simp only [Finset.mem_sdiff, Finset.mem_inter] at hx hx2 <;> tauto

theorem startsWith_iff (n : List Char) :
    ∀ h, startsWith n h = true ↔ ∃ t, h = n ++ t := by
  induction n with
  | nil => intro h; simp [startsWith]
  | cons a as ih =>
    intro h
    cases h with
    | nil => simp [startsWith]
    | cons b bs =>
      rw [startsWith, Bool.and_eq_true, decide_eq_true_iff, ih bs]
      simp only [List.cons_append]
      constructor
      · rintro ⟨rfl, t, rfl⟩
        exact ⟨t, rfl⟩
      · rintro ⟨t, ht⟩
        injection ht with h1 h2
        exact ⟨h1.symm, t, h2⟩

theorem containsSub_iff (n : List Char) :
    ∀ h, containsSub n h = true ↔ ∃ u v, h = u ++ n ++ v := by
  intro h
  induction h with
  | nil =>
    rw [containsSub, startsWith_iff]
    constructor
    · rintro ⟨t, ht⟩
      exact ⟨[], t, by simpa using ht⟩
    · rintro ⟨u, v, huv⟩
      rw [eq_comm, List.append_eq_nil, List.append_eq_nil] at huv
      exact ⟨[], by simp [huv.1.2]⟩
  | cons c t ih =>
    rw [containsSub, Bool.or_eq_true, startsWith_iff, ih]
    constructor
    · rintro (⟨v, hv⟩ | ⟨u, v, huv⟩)
      · exact ⟨[], v, by simpa using hv⟩
      · exact ⟨c :: u, v, by simp [huv]⟩
    · rintro ⟨u, v, huv⟩
      cases u with
      | nil => exact Or.inl ⟨v, by simpa using huv⟩
      | cons x us =>
        simp only [List.cons_append, List.cons.injEq, List.append_assoc] at huv
        exact Or.inr ⟨us, v, by simp [huv.2]⟩

/-! ## Claim theorems -/

/-- C3 counterexample: on the input `" a "`, which contains no full-width
bracket, the code leaves the string untouched (no whitespace trimming),
whereas the claimed for-every-input transformation would trim it. -/
theorem C3_cex : stripParen [' ', 'a', ' '] ≠ stripParenSpec [' ', 'a', ' '] := by
  decide

/-- C3 (amended): the name-cleaning step truncates at the first full-width
bracket and trims the result only when such a bracket is present; names
without one are returned unchanged (in particular not trimmed).  In both
cases the transformation is idempotent. -/
theorem C3_strip_paren (s : List Char) :
    stripParen (stripParen s) = stripParen s ∧
    stripParen s =
      if '（' ∈ s then pyStrip (s.takeWhile (fun c => decide (c ≠ '（'))) else s :=
  ⟨stripParen_idem s, rfl⟩

/-- C10: `check_services_in_search` returns exactly one record per input
name, in input order, with the name field unchanged; hence its output length
always equals the input length, whatever the search results are. -/
theorem C10_record_shape (services_list : List (List Char))
    (search_results : List SearchItem) :
    (check_services_in_search services_list search_results).map
        Service.service_name = services_list ∧
    (check_services_in_search services_list search_results).length =
      services_list.length := by
  refine ⟨?_, ?_⟩ <;>
    simp [check_services_in_search, List.map_map, Function.comp_def]

/-- C5: the two knowledge sets of the Venn step split into three pairwise
disjoint parts (recall-only, search-only, both) whose reported cardinalities
sum to the cardinality of the union. -/
theorem C5_venn_partition (gl sl : List Service) :
    (venn_labels (knownSet gl) (knownSet sl)).1 +
        (venn_labels (knownSet gl) (knownSet sl)).2.1 +
        (venn_labels (knownSet gl) (knownSet sl)).2.2 =
      (knownSet gl ∪ knownSet sl).card ∧
    Disjoint (knownSet gl \ knownSet sl) (knownSet sl \ knownSet gl) ∧
    Disjoint (knownSet gl \ knownSet sl) (knownSet gl ∩ knownSet sl) ∧
    Disjoint (knownSet sl \ knownSet gl) (knownSet gl ∩ knownSet sl) :=
  ⟨venn_card _ _, venn_disj _ _⟩

/-- C4: `check_services_in_search` marks a name as known exactly when the
lowercased name occurs as a contiguous substring of the lowercased title or
snippet of some search result (a pure computation over the given results); in
particular "tableau" matches a result titled "Tableau Software". -/
theorem C4_case_insensitive :
    (∀ (services_list : List (List Char)) (search_results : List SearchItem)
        (n : List Char),
      Service.mk n true ∈ check_services_in_search services_list search_results ↔
        n ∈ services_list ∧ ∃ r ∈ search_results,
          (∃ u v, lowerStr r.title = u ++ lowerStr n ++ v) ∨
          (∃ u v, lowerStr r.snippet = u ++ lowerStr n ++ v)) ∧
    check_services_in_search ["tableau".toList]
        [⟨"Tableau Software".toList, []⟩] = [⟨"tableau".toList, true⟩] := by
  constructor
  · intro services_list search_results n
    rw [check_services_in_search]
    simp only [List.mem_map]
    constructor
    · rintro ⟨s, hs, heq⟩
      rw [Service.mk.injEq] at heq
      obtain ⟨rfl, hknow⟩ := heq
      refine ⟨hs, ?_⟩
      rw [List.any_eq_true] at hknow
      obtain ⟨r, hr, hor⟩ := hknow
      rw [Bool.or_eq_true, containsSub_iff, containsSub_iff] at hor
      exact ⟨r, hr, hor⟩
    · rintro ⟨hn, r, hr, hor⟩
      refine ⟨n, hn, ?_⟩
      rw [Service.mk.injEq]
      refine ⟨rfl, ?_⟩
      rw [List.any_eq_true]
      refine ⟨r, hr, ?_⟩
      rw [Bool.or_eq_true, containsSub_iff, containsSub_iff]
      exact hor
  · decide

/-- C7: the post-filter of `get_services_from_gemini` keeps a record exactly
when its name is non-empty and its boolean is non-null, and the kept record
carries the boolean the model returned (a null boolean is dropped, never
coerced to false). -/
theorem C7_null_filter (response : List RawService) (n : List Char) (b : Bool) :
    Service.mk n b ∈ get_services_from_gemini response ↔
      n ≠ [] ∧ RawService.mk n (some b) ∈ response := by
  rw [get_services_from_gemini, List.mem_filterMap]
  constructor
  · rintro ⟨⟨aname, aknow⟩, ha, hfa⟩
    cases aknow with
    | none => simp at hfa
    | some bb =>
      by_cases h : aname = []
      · simp [h] at hfa
      · simp only [h, if_neg, ite_false, Option.some.injEq, Service.mk.injEq] at hfa
        obtain ⟨h1, h2⟩ := hfa
        subst h1
        subst h2
        exact ⟨h, ha⟩
  · rintro ⟨hn, hmem⟩
    refine ⟨⟨n, some b⟩, hmem, ?_⟩
    simp [hn]

theorem fill_scores_eq (ns : List (List Char)) :
    ∀ acc : List ServiceScore,
      fill_scores ns acc =
        acc ++ (missingNames ns (acc.map ServiceScore.service_name)).map
          (fun n => ⟨n, 0⟩) := by
  induction ns with
  | nil => intro acc; simp [fill_scores, missingNames]
  | cons n ns ih =>
    intro acc
    rw [fill_scores, List.foldl_cons]
    by_cases h : n ∈ acc.map ServiceScore.service_name
    · rw [if_pos h]
      have := ih acc
      rw [fill_scores] at this
      rw [this, missingNames, if_pos h]
    · rw [if_neg h]
      have := ih (acc ++ [⟨n, 0⟩])
      rw [fill_scores] at this
      rw [this, missingNames, if_neg h]
      simp [List.append_assoc]

theorem missingNames_mem (ns : List (List Char)) :
    ∀ seen n, n ∈ missingNames ns seen ↔ n ∈ ns ∧ n ∉ seen := by
  induction ns with
  | nil => intro seen n; simp [missingNames]
  | cons m ns ih =>
    intro seen n
    rw [missingNames]
    by_cases h : m ∈ seen
    · rw [if_pos h, ih]
      constructor
      · rintro ⟨h1, h2⟩
        exact ⟨List.mem_cons_of_mem m h1, h2⟩
      · rintro ⟨h1, h2⟩
        rcases List.mem_cons.mp h1 with rfl | h1
        · exact absurd h h2
        · exact ⟨h1, h2⟩
    · rw [if_neg h, List.mem_cons, ih]
      constructor
      · rintro (rfl | ⟨h1, h2⟩)
        · exact ⟨List.mem_cons_self n ns, h⟩
        · exact ⟨List.mem_cons_of_mem m h1,
            fun hc => h2 (List.mem_append_left _ hc)⟩
      · rintro ⟨h1, h2⟩
        rcases List.mem_cons.mp h1 with rfl | h1
        · exact Or.inl rfl
        · by_cases hnm : n = m
          · exact Or.inl hnm
          · refine Or.inr ⟨h1, fun hc => ?_⟩
            rcases List.mem_append.mp hc with hc | hc
            · exact h2 hc
            · exact hnm (List.mem_singleton.mp hc)

theorem missingNames_sublist (ns : List (List Char)) :
    ∀ seen, (missingNames ns seen).Sublist ns := by
  induction ns with
  | nil => intro seen; simp [missingNames]
  | cons m ns ih =>
    intro seen
    rw [missingNames]
    by_cases h : m ∈ seen
    · rw [if_pos h]
      exact (ih seen).cons m
    · rw [if_neg h]
      exact (ih (seen ++ [m])).cons₂ m

theorem missingNames_nodup (ns : List (List Char)) :
    ∀ seen, (missingNames ns seen).Nodup := by
  induction ns with
  | nil => intro seen; simp [missingNames]
  | cons m ns ih =>
    intro seen
    rw [missingNames]
    by_cases h : m ∈ seen
    · rw [if_pos h]
      exact ih seen
    · rw [if_neg h]
      refine List.nodup_cons.mpr ⟨?_, ih (seen ++ [m])⟩
      intro hc
      have := ((missingNames_mem ns (seen ++ [m]) m).mp hc).2
      simp at this

theorem missingNames_filter (ns : List (List Char)) :
    ∀ seen, ns.Nodup →
      missingNames ns seen = ns.filter (fun n => decide (n ∉ seen)) := by
  induction ns with
  | nil => intro seen _; simp [missingNames]
  | cons m ns ih =>
    intro seen hnd
    rw [List.nodup_cons] at hnd
    by_cases h : m ∈ seen
    · rw [missingNames, if_pos h, ih seen hnd.2,
        List.filter_cons_of_neg (by simp [h])]
    · rw [missingNames, if_neg h, ih (seen ++ [m]) hnd.2,
        List.filter_cons_of_pos (by simp [h])]
      congr 1
      apply List.filter_congr
      intro x hx
      have hxm : x ≠ m := fun hc => hnd.1 (hc ▸ hx)
      simp [hxm]

/-- C2: the zero-fill output starts with the original scored records,
unchanged and in source order, followed by records with score 0 for the
missing names, listed in the order they occur in the scraped name list
(`Sublist`), and containing exactly the names absent from the scores. -/
theorem C2_zero_fill_order (service_list : List (List Char))
    (services_scores : List ServiceScore) :
    ∃ ms : List (List Char),
      fill_scores service_list services_scores =
        services_scores ++ ms.map (fun n => ServiceScore.mk n 0) ∧
      ms.Sublist service_list ∧
      ∀ n, n ∈ ms ↔ n ∈ service_list ∧
        n ∉ services_scores.map ServiceScore.service_name :=
  ⟨missingNames service_list (services_scores.map ServiceScore.service_name),
    fill_scores_eq service_list services_scores,
    missingNames_sublist service_list _,
    fun n => missingNames_mem service_list _ n⟩

/-- C1 counterexample: the claim quantifies over any names list and any score
subset, but with the duplicated input name "A" and two score records for "A"
(both legal inputs to the loop) the zero-fill output keeps both records, so it
does contain duplicate service names. -/
theorem C1_cex :
    (∀ s ∈ [ServiceScore.mk ['A'] 1, ServiceScore.mk ['A'] 2],
        s.service_name ∈ [['A'], ['A']]) ∧
    ¬ ((fill_scores [['A'], ['A']]
          [ServiceScore.mk ['A'] 1, ServiceScore.mk ['A'] 2]).map
        ServiceScore.service_name).Nodup := by
  refine ⟨by decide, ?_⟩
  decide

/-- C1 (amended): when the scraped name list is duplicate-free and the score
records carry pairwise-distinct names drawn from that list, the zero-fill
output has exactly the length of the name list, contains no duplicate service
names, and gives every unscored name a record with score exactly 0. -/
theorem C1_zero_fill_complete (service_list : List (List Char))
    (services_scores : List ServiceScore)
    (hn : service_list.Nodup)
    (hs : (services_scores.map ServiceScore.service_name).Nodup)
    (hsub : ∀ s ∈ services_scores, s.service_name ∈ service_list) :
    (fill_scores service_list services_scores).length = service_list.length ∧
    ((fill_scores service_list services_scores).map
        ServiceScore.service_name).Nodup ∧
    ∀ n ∈ service_list, n ∉ services_scores.map ServiceScore.service_name →
      ServiceScore.mk n 0 ∈ fill_scores service_list services_scores := by
  have heq := fill_scores_eq service_list services_scores
  have hms := missingNames_filter service_list
    (services_scores.map ServiceScore.service_name) hn
  rw [hms] at heq
  have hsubn : ∀ x ∈ services_scores.map ServiceScore.service_name,
      x ∈ service_list := by
    intro x hx
    rw [List.mem_map] at hx
    obtain ⟨s, hs1, rfl⟩ := hx
    exact hsub s hs1
  have hlen1 : (service_list.filter
        (fun n => decide (n ∉ services_scores.map ServiceScore.service_name))).length +
      (service_list.filter
        (fun n => !decide (n ∉ services_scores.map ServiceScore.service_name))).length =
      service_list.length := by
    have hp := (List.filter_append_perm
      (fun n => decide (n ∉ services_scores.map ServiceScore.service_name))
      service_list).length_eq
    simpa [List.length_append] using hp
  have hlen2 : (service_list.filter
        (fun n => !decide (n ∉ services_scores.map ServiceScore.service_name))).length =
      services_scores.length := by
    have hmemiff : ∀ a : List Char,
        a ∈ service_list.filter
            (fun n => !decide (n ∉ services_scores.map ServiceScore.service_name)) ↔
          a ∈ services_scores.map ServiceScore.service_name := by
      intro a
      rw [List.mem_filter]
      constructor
      · rintro ⟨_, h2⟩
        simpa using h2
      · intro ha
        exact ⟨hsubn a ha, by simpa using ha⟩
    have hperm := (List.perm_ext_iff_of_nodup (hn.filter _) hs).mpr hmemiff
    rw [hperm.length_eq, List.length_map]
  refine ⟨?_, ?_, ?_⟩
  · rw [heq, List.length_append, List.length_map]
    omega
  · rw [heq]
    have hmap : (services_scores ++
          (service_list.filter
            (fun n => decide (n ∉ services_scores.map ServiceScore.service_name))).map
            (fun n => ServiceScore.mk n 0)).map ServiceScore.service_name =
        services_scores.map ServiceScore.service_name ++
          service_list.filter
            (fun n => decide (n ∉ services_scores.map ServiceScore.service_name)) := by
      simp [List.map_map, Function.comp_def]
    rw [hmap]
    refine List.Nodup.append hs (hn.filter _) ?_
    intro a ha hafil
    have := (List.mem_filter.mp hafil).2
    simp only [decide_eq_true_eq] at this
    exact this ha
  · intro n hn1 hn2
    rw [heq]
    refine List.mem_append_right _ ?_
    rw [List.mem_map]
    exact ⟨n, List.mem_filter.mpr ⟨hn1, by simpa using hn2⟩, rfl⟩

/-- C1 witness: the amended statement instantiated at names `[A, B]` and the
single score record `(B, 3)`. -/
theorem C1_zero_fill_complete_w :
    (fill_scores [['A'], ['B']] [ServiceScore.mk ['B'] 3]).length =
        [['A'], ['B']].length ∧
    ((fill_scores [['A'], ['B']] [ServiceScore.mk ['B'] 3]).map
        ServiceScore.service_name).Nodup ∧
    ∀ n ∈ [['A'], ['B']],
      n ∉ [ServiceScore.mk ['B'] 3].map ServiceScore.service_name →
        ServiceScore.mk n 0 ∈
          fill_scores [['A'], ['B']] [ServiceScore.mk ['B'] 3] :=
  C1_zero_fill_complete [['A'], ['B']] [ServiceScore.mk ['B'] 3]
    (by decide) (by decide) (by decide)

/-- C6: on a missing cache file and `forced = false`, each provider performs
exactly one fallback into the forced live-fetch branch, persists the fetched
data, and terminates: for every recursion-depth budget of at least 2 the
result is the same defined value with exactly one live fetch pass. -/
theorem C6_one_fallback (page : Nat → Except Unit (List CardRes))
    (fetch : Nat → PageRes) (num_results : Int) (fuel : Nat)
    (hfuel : 2 ≤ fuel) (h1 : 1 ≤ num_results) (h2 : num_results ≤ 100) :
    get_bi_service_list page fuel false none =
      some (scrapePages page (List.range' 1 14),
        some (scrapePages page (List.range' 1 14)), 1) ∧
    get_google_search_results fetch num_results fuel false none =
      some ((searchGo fetch num_results.toNat
              (chunkIndices num_results.toNat) []).take num_results.toNat,
        some (searchGo fetch num_results.toNat
              (chunkIndices num_results.toNat) []), 1, 0, 1) := by
  obtain ⟨f, rfl⟩ : ∃ f, fuel = f + 2 := ⟨fuel - 2, by omega⟩
  constructor
  · simp [get_bi_service_list]
  · simp [get_google_search_results, h1, h2]

/-- C6 witness: fallback at depth budget exactly 2, with a trivial catalog
page behaviour and a search backend that reports no items. -/
theorem C6_one_fallback_w :
    get_bi_service_list (fun _ => Except.ok []) 2 false none =
      some (scrapePages (fun _ => Except.ok []) (List.range' 1 14),
        some (scrapePages (fun _ => Except.ok []) (List.range' 1 14)), 1) ∧
    get_google_search_results (fun _ => PageRes.noItems) 10 2 false none =
      some ((searchGo (fun _ => PageRes.noItems) (10 : Int).toNat
              (chunkIndices (10 : Int).toNat) []).take (10 : Int).toNat,
        some (searchGo (fun _ => PageRes.noItems) (10 : Int).toNat
              (chunkIndices (10 : Int).toNat) []), 1, 0, 1) :=
  C6_one_fallback (fun _ => Except.ok []) (fun _ => PageRes.noItems) 10 2
    (by decide) (by decide) (by decide)

/-- C8: a requested result count outside [1, 100] makes the search provider
return the empty list at once: no exception (the result is defined already at
depth budget 1), no live fetch, no cache load, no cache write, and the cache
content is left untouched. -/
theorem C8_invalid_count (fetch : Nat → PageRes) (num_results : Int)
    (fuel : Nat) (forced : Bool) (cache : Option (List SearchItem))
    (hn : ¬ (1 ≤ num_results ∧ num_results ≤ 100)) (hfuel : 1 ≤ fuel) :
    get_google_search_results fetch num_results fuel forced cache =
      some ([], cache, 0, 0, 0) := by
  obtain ⟨f, rfl⟩ : ∃ f, fuel = f + 1 := ⟨fuel - 1, by omega⟩
  rw [get_google_search_results.eq_def]
  simp only []
  rw [if_neg hn]

/-- C8 witness: the invalid request for 101 results. -/
theorem C8_invalid_count_w :
    get_google_search_results (fun _ => PageRes.noItems) 101 1 false none =
      some ([], none, 0, 0, 0) :=
  C8_invalid_count (fun _ => PageRes.noItems) 101 1 false none
    (by decide) (by decide)

/-- C9 counterexample: with page 1 yielding one good card ("A") and then a
card whose extraction raises, the forced scrape returns `["A"]` — it keeps
the name already extracted from the erroring page — while the claim's
"names accumulated from the pages processed before the error" is the empty
list. -/
theorem C9_cex :
    scrapePages pgOneBadCard (List.range' 1 14) = [['A']] ∧
    namesBeforeErrorPage pgOneBadCard (List.range' 1 14) = [] ∧
    ([['A']] : List (List Char)) ≠ [] := by
  decide

/-- C9 (amended): a fetch/parse error on a page aborts all remaining
pagination — the loop result for `page i` followed by any further pages
equals the result for `page i` alone, so the provider returns what was
accumulated up to and including the partially processed erroring page,
without raising and without retrying. -/
theorem C9_abort (page : Nat → Except Unit (List CardRes)) (i : Nat)
    (rest : List Nat)
    (herr : page i = Except.error () ∨
      ∃ cards, page i = Except.ok cards ∧ (processCards cards).2 = true) :
    scrapePages page (i :: rest) = scrapePages page [i] := by
  rcases herr with h | ⟨cards, hc, he⟩
  · simp [scrapePages, h]
  · simp [scrapePages, hc, he]

/-- C9 witness: the erroring first page aborts pages 2 and 3. -/
theorem C9_abort_w :
    scrapePages pgOneBadCard [1, 2, 3] = scrapePages pgOneBadCard [1] :=
  C9_abort pgOneBadCard 1 [2, 3]
    (Or.inr ⟨[Except.ok ['A'], Except.error ()], rfl, by decide⟩)

end Kirikei
